import Mathlib

/-!
Verification development for a pair of planar convex-hull routines
(Graham scan and Quickhull) written in Python.

Modelling decisions, fixed once for the whole file:

* A point is a pair of rational numbers (`Point := ℚ × ℚ`).  The source
  works on machine floats; all arithmetic it performs on coordinates is
  ring arithmetic (products and differences) and order comparison, which
  we model exactly over `ℚ`.
* `math.atan2` appears only inside the sort key of Graham scan, i.e. only
  the relative order of the values `atan2 (y - y₀) (x - x₀)` matters,
  never the values themselves.  `atan2 dy dx` lies in `(-π, π]`: it is
  negative for `dy < 0`, equal to `0` for `dy = 0 ∧ 0 ≤ dx` (including
  `atan2 0 0 = 0`), in `(0, π)` for `0 < dy`, and equal to `π` for
  `dy = 0 ∧ dx < 0`.  Inside the two open half planes the order of the
  angle agrees with the sign of the cross product of the two direction
  vectors.  `SortRel` below implements exactly this order together with
  the lexicographic tie break on the point itself that the source's sort
  key `(atan2 ..., p)` provides.
* Python's `sorted` is a stable sort by the key above.  Because the key
  contains the point itself, the resulting order is antisymmetric, so the
  sorted list is unique and any correct sorting algorithm produces it; we
  use `List.insertionSort` and prove the order facts we need from it.
* Python's `min`/`max` with a key keep the first element whose key is
  strictly better than the current best; they are embedded as the
  corresponding left folds.
* `quickhull_util` is recursive and, as shown below, does not terminate on
  every input, so it is embedded with an explicit fuel argument; `none`
  means the given recursion budget was exhausted (in particular a result
  `none` for every fuel means the Python recursion never returns).
-/

abbrev Point := ℚ × ℚ

/-- Embedding of `orientation(p, q, r)`: the sign of
`(q.y - p.y) * (r.x - q.x) - (q.x - p.x) * (r.y - q.y)` encoded as the
category `0` (collinear), `1` (positive value), `2` (negative value). -/
def orientation (p q r : Point) : Nat :=
  if (q.2 - p.2) * (r.1 - q.1) - (q.1 - p.1) * (r.2 - q.2) = 0 then 0
  else if 0 < (q.2 - p.2) * (r.1 - q.1) - (q.1 - p.1) * (r.2 - q.2) then 1
  else 2

/-- Embedding of `side(p1, p2, p)`: the raw signed value
`(p.y - p1.y) * (p2.x - p1.x) - (p2.y - p1.y) * (p.x - p1.x)`. -/
def side (p1 p2 p : Point) : ℚ :=
  (p.2 - p1.2) * (p2.1 - p1.1) - (p2.2 - p1.2) * (p.1 - p1.1)

/-- Embedding of `min(range(n), key=lambda i: (points[i][1], points[i][0]))`
followed by `points[l]`: the first point of the list that is strictly
smallest for the lexicographic key `(y, x)`.  Python's `min` replaces the
current best only on a strictly smaller key, hence the strict comparison. -/
def pyMinYX (b : Point) (pts : List Point) : Point :=
  pts.foldl (fun best q => if q.2 < best.2 ∨ (q.2 = best.2 ∧ q.1 < best.1) then q else best) b

/-- Embedding of `min(points, key=lambda p: p[0])`: first point with
strictly smallest x so far wins. -/
def pyMinX (b : Point) (pts : List Point) : Point :=
  pts.foldl (fun best q => if q.1 < best.1 then q else best) b

/-- Embedding of `max(points, key=lambda p: p[0])`: first point with
strictly largest x so far wins. -/
def pyMaxX (b : Point) (pts : List Point) : Point :=
  pts.foldl (fun best q => if best.1 < q.1 then q else best) b

/-- Cross product of the vectors `a - p0` and `b - p0`; positive exactly
when `b - p0` lies counter-clockwise of `a - p0` (for vectors inside one
open half plane this decides which has the smaller `atan2` angle). -/
def crossAt (p0 a b : Point) : ℚ :=
  (a.1 - p0.1) * (b.2 - p0.2) - (a.2 - p0.2) * (b.1 - p0.1)

/-- Which of the four bands of the `atan2` range `(-π, π]` the angle of
`p - p0` falls in: `0` for negative angles (`dy < 0`), `1` for angle `0`
(`dy = 0 ∧ 0 ≤ dx`, including the zero vector, as `atan2 0 0 = 0`), `2`
for angles in `(0, π)` (`0 < dy`), `3` for angle `π` (`dy = 0 ∧ dx < 0`). -/
def angClass (p0 p : Point) : Nat :=
  if p.2 < p0.2 then 0
  else if p.2 = p0.2 ∧ p0.1 ≤ p.1 then 1
  else if p0.2 < p.2 then 2
  else 3

/-- Lexicographic order on the coordinate pair, Python's `<=` on tuples;
the tie break of the sort key `(atan2 ..., p)`. -/
def lexLe (a b : Point) : Prop := a.1 < b.1 ∨ (a.1 = b.1 ∧ a.2 ≤ b.2)

instance (a b : Point) : Decidable (lexLe a b) := by unfold lexLe; infer_instance

/-- The angle bands `0` and `2` are the two open half planes, where equal
class means the cross product decides the angle order. -/
def openClass (p0 p : Point) : Prop := angClass p0 p = 0 ∨ angClass p0 p = 2

instance (p0 p : Point) : Decidable (openClass p0 p) := by unfold openClass; infer_instance

/-- The total order used by Graham scan's sort: compare the exact `atan2`
angles of `a - p0` and `b - p0` (band first, cross product inside an open
band), then break ties lexicographically on the point — the embedding of
the Python sort key `(atan2(p[1]-p0[1], p[0]-p0[0]), p)`. -/
def SortRel (p0 a b : Point) : Prop :=
  angClass p0 a < angClass p0 b ∨
    (angClass p0 a = angClass p0 b ∧
      ((openClass p0 a ∧ 0 < crossAt p0 a b) ∨
        ((openClass p0 a → crossAt p0 a b = 0) ∧ lexLe a b)))

instance (p0 : Point) : DecidableRel (SortRel p0) := fun a b => by
  unfold SortRel; infer_instance

/-- The angle-sorted copy of the point list, Python's
`sorted(points, key=lambda p: (atan2(p[1]-p0[1], p[0]-p0[0]), p))`. -/
def sortedPoints (p0 : Point) (points : List Point) : List Point :=
  List.insertionSort (SortRel p0) points

/-- One run of the inner `while` loop of Graham scan with an explicit
iteration budget (structural recursion so that the kernel can evaluate
it); `n` bounds the number of pops.  The stack is a Lean list in the same
order as the Python list `hull`, so `hull[-1]` is `hull.getLastD _` and
`hull[-2]` is `hull.dropLast.getLastD _` (the defaults are unreachable:
both accesses are guarded by `1 < hull.length`). -/
def popLoopAux : Nat → List Point → Point → List Point
  | 0, hull, _ => hull
  | n + 1, hull, point =>
    if 1 < hull.length then
      if orientation (hull.dropLast.getLastD point) (hull.getLastD point) point ≠ 1 then
        popLoopAux n hull.dropLast point
      else hull
    else hull

/-- Embedding of `while len(hull) > 1 and orientation(hull[-2], hull[-1],
point) != 1: hull.pop()`: each iteration shortens `hull`, so
`hull.length` pops always suffice as a budget. -/
def popLoop (hull : List Point) (point : Point) : List Point :=
  popLoopAux hull.length hull point

/-- Embedding of `graham_scan(points)`. -/
def graham_scan (points : List Point) : List Point :=
  match points with
  | [] => []
  | p :: rest =>
    if (p :: rest).length < 3 then p :: rest
    else
      (sortedPoints (pyMinYX p rest) (p :: rest)).foldl
        (fun hull point => popLoop hull point ++ [point]) []

/-- Embedding of the scan loop of `quickhull_util`: fold over the points
keeping `(max_dist, max_point)`, starting from `(0, None)`, updating when
`side(p1, p2, p) == side_flag` and `abs(side(p1, p2, p)) > max_dist`;
returns the final `max_point`. -/
def findFarthest (points : List Point) (p1 p2 : Point) (side_flag : ℚ) : Option Point :=
  (points.foldl
    (fun st p =>
      if side p1 p2 p = side_flag ∧ st.1 < |side p1 p2 p| then (|side p1 p2 p|, some p) else st)
    ((0 : ℚ), (none : Option Point))).2

/-- Embedding of the recursive `quickhull_util(points, p1, p2, side)` with
an explicit fuel for the recursion depth: `some hull` is the Python return
value, `none` means the budget was exhausted before the recursion
bottomed out. -/
def quickhull_util (fuel : Nat) (points : List Point) (p1 p2 : Point) (side_flag : ℚ) :
    Option (List Point) :=
  match fuel with
  | 0 => none
  | fuel + 1 =>
    match findFarthest points p1 p2 side_flag with
    | none => some []
    | some max_point =>
      match quickhull_util fuel points p1 max_point (-(side p1 max_point p2)),
            quickhull_util fuel points max_point p2 (-(side max_point p2 p1)) with
      | some l, some r => some (l ++ [max_point] ++ r)
      | _, _ => none

/-- Embedding of `quickhull(points)` with the fuel threaded through to the
two recursive utility calls. -/
def quickhull (fuel : Nat) (points : List Point) : Option (List Point) :=
  match points with
  | [] => some []
  | p :: rest =>
    if (p :: rest).length < 3 then some (p :: rest)
    else
      let min_point := pyMinX p rest
      let max_point := pyMaxX p rest
      match quickhull_util fuel (p :: rest) min_point max_point 1,
            quickhull_util fuel (p :: rest) min_point max_point (-1) with
      | some upper, some lower => some (upper ++ lower ++ [min_point, max_point])
      | _, _ => none

/-! ### Basic facts about the angle bands and the cross product -/

lemma angClass_zero_iff (p0 p : Point) : angClass p0 p = 0 ↔ p.2 < p0.2 := by
  unfold angClass; split_ifs with h1 h2 h3 <;> simp_all

lemma angClass_one_iff (p0 p : Point) : angClass p0 p = 1 ↔ p.2 = p0.2 ∧ p0.1 ≤ p.1 := by
  unfold angClass
  split_ifs with h1 h2 h3
  · exact ⟨fun h => absurd h (by decide), fun h => absurd h.1 (ne_of_lt h1)⟩
  · exact ⟨fun _ => h2, fun _ => rfl⟩
  · exact ⟨fun h => absurd h (by decide), fun h => absurd h.1.symm (ne_of_lt h3)⟩
  · exact ⟨fun h => absurd h (by decide), fun h => absurd h h2⟩

lemma angClass_two_iff (p0 p : Point) : angClass p0 p = 2 ↔ p0.2 < p.2 := by
  unfold angClass
  split_ifs with h1 h2 h3
  · exact ⟨fun h => absurd h (by decide), fun h => absurd rfl (ne_of_gt (lt_trans h1 h))⟩
  · exact ⟨fun h => absurd h (by decide), fun h => absurd h2.1.symm (ne_of_lt h)⟩
  · exact ⟨fun _ => h3, fun _ => rfl⟩
  · exact ⟨fun h => absurd h (by decide), fun h => absurd h h3⟩

lemma angClass_three_iff (p0 p : Point) : angClass p0 p = 3 ↔ p.2 = p0.2 ∧ p.1 < p0.1 := by
  unfold angClass
  split_ifs with h1 h2 h3
  · exact ⟨fun h => absurd h (by decide), fun h => absurd h.1 (ne_of_lt h1)⟩
  · exact ⟨fun h => absurd h (by decide), fun h => absurd h2.2 (not_le.mpr h.2)⟩
  · exact ⟨fun h => absurd h (by decide), fun h => absurd h.1.symm (ne_of_lt h3)⟩
  · refine ⟨fun _ => ⟨le_antisymm (le_of_not_lt h3) (le_of_not_lt h1), ?_⟩, fun _ => rfl⟩
    have hy : p.2 = p0.2 := le_antisymm (le_of_not_lt h3) (le_of_not_lt h1)
    exact lt_of_not_le fun hx => h2 ⟨hy, hx⟩

lemma angClass_cases (p0 p : Point) :
    angClass p0 p = 0 ∨ angClass p0 p = 1 ∨ angClass p0 p = 2 ∨ angClass p0 p = 3 := by
  unfold angClass; split_ifs <;> simp

lemma openClass_iff (p0 p : Point) : openClass p0 p ↔ p.2 ≠ p0.2 := by
  unfold openClass
  rw [angClass_zero_iff, angClass_two_iff]
  constructor
  · rintro (h | h)
    · exact ne_of_lt h
    · exact ne_of_gt h
  · intro h; exact lt_or_gt_of_ne h

lemma openClass_congr (p0 a b : Point) (h : angClass p0 a = angClass p0 b) :
    openClass p0 a ↔ openClass p0 b := by
  unfold openClass; rw [h]

lemma crossAt_antisymm (p0 a b : Point) : crossAt p0 a b = -crossAt p0 b a := by
  unfold crossAt; ring

lemma crossAt_identity (p0 a b c : Point) :
    crossAt p0 a c * (b.2 - p0.2) =
      crossAt p0 a b * (c.2 - p0.2) + crossAt p0 b c * (a.2 - p0.2) := by
  unfold crossAt; ring

/-- Sign hypothesis for chaining cross products: the three points lie in
one common open half plane determined by the horizontal line through `p0`. -/
def sameSide (p0 a b c : Point) : Prop :=
  (0 < a.2 - p0.2 ∧ 0 < b.2 - p0.2 ∧ 0 < c.2 - p0.2) ∨
    (a.2 - p0.2 < 0 ∧ b.2 - p0.2 < 0 ∧ c.2 - p0.2 < 0)

lemma crossAt_trans_nonneg (p0 a b c : Point) (hs : sameSide p0 a b c)
    (h1 : 0 ≤ crossAt p0 a b) (h2 : 0 ≤ crossAt p0 b c) : 0 ≤ crossAt p0 a c := by
  have key := crossAt_identity p0 a b c
  rcases hs with ⟨ha, hb, hc⟩ | ⟨ha, hb, hc⟩ <;> nlinarith

lemma crossAt_trans_pos (p0 a b c : Point) (hs : sameSide p0 a b c)
    (h1 : 0 ≤ crossAt p0 a b) (h2 : 0 ≤ crossAt p0 b c)
    (h3 : 0 < crossAt p0 a b ∨ 0 < crossAt p0 b c) : 0 < crossAt p0 a c := by
  have key := crossAt_identity p0 a b c
  rcases h3 with h3 | h3 <;> rcases hs with ⟨ha, hb, hc⟩ | ⟨ha, hb, hc⟩ <;> nlinarith

lemma crossAt_trans_zero (p0 a b c : Point) (hs : sameSide p0 a b c)
    (h1 : crossAt p0 a b = 0) (h2 : crossAt p0 b c = 0) : crossAt p0 a c = 0 := by
  have key := crossAt_identity p0 a b c
  rcases hs with ⟨ha, hb, hc⟩ | ⟨ha, hb, hc⟩ <;> nlinarith [sq_nonneg (crossAt p0 a c)]

lemma lexLe_trans (a b c : Point) (h1 : lexLe a b) (h2 : lexLe b c) : lexLe a c := by
  unfold lexLe at *
  rcases h1 with h1 | ⟨h1, h1'⟩ <;> rcases h2 with h2 | ⟨h2, h2'⟩
  · exact Or.inl (lt_trans h1 h2)
  · exact Or.inl (h2 ▸ h1)
  · exact Or.inl (h1 ▸ h2)
  · exact Or.inr ⟨h1.trans h2, le_trans h1' h2'⟩

lemma lexLe_total (a b : Point) : lexLe a b ∨ lexLe b a := by
  unfold lexLe
  rcases lt_trichotomy a.1 b.1 with h | h | h
  · exact Or.inl (Or.inl h)
  · rcases le_total a.2 b.2 with h' | h'
    · exact Or.inl (Or.inr ⟨h, h'⟩)
    · exact Or.inr (Or.inr ⟨h.symm, h'⟩)
  · exact Or.inr (Or.inl h)

lemma lexLe_antisymm (a b : Point) (h1 : lexLe a b) (h2 : lexLe b a) : a = b := by
  unfold lexLe at *
  rcases h1 with h1 | ⟨h1, h1'⟩ <;> rcases h2 with h2 | ⟨h2, h2'⟩ <;>
    [skip; skip; skip; exact Prod.ext h1 (le_antisymm h1' h2')] <;> linarith

/-- The band-equal case of `SortRel` forces the three points into a common
open half plane when the band is open. -/
lemma sameSide_of_classes (p0 a b c : Point)
    (hab : angClass p0 a = angClass p0 b) (hbc : angClass p0 b = angClass p0 c)
    (hop : openClass p0 a) : sameSide p0 a b c := by
  rcases hop with h0 | h2
  · have hb0 : angClass p0 b = 0 := hab ▸ h0
    have hc0 : angClass p0 c = 0 := hbc ▸ hb0
    exact Or.inr ⟨sub_neg.mpr ((angClass_zero_iff p0 a).mp h0),
      sub_neg.mpr ((angClass_zero_iff p0 b).mp hb0),
      sub_neg.mpr ((angClass_zero_iff p0 c).mp hc0)⟩
  · have hb2 : angClass p0 b = 2 := hab ▸ h2
    have hc2 : angClass p0 c = 2 := hbc ▸ hb2
    exact Or.inl ⟨sub_pos.mpr ((angClass_two_iff p0 a).mp h2),
      sub_pos.mpr ((angClass_two_iff p0 b).mp hb2),
      sub_pos.mpr ((angClass_two_iff p0 c).mp hc2)⟩

instance sortRelTrans (p0 : Point) : IsTrans Point (SortRel p0) := by
  constructor
  intro a b c hab hbc
  unfold SortRel at *
  rcases hab with hab | ⟨habe, hab2⟩
  · rcases hbc with hbc | ⟨hbce, _⟩
    · exact Or.inl (lt_trans hab hbc)
    · exact Or.inl (hbce ▸ hab)
  · rcases hbc with hbc | ⟨hbce, hbc2⟩
    · exact Or.inl (habe ▸ hbc)
    · have hace : angClass p0 a = angClass p0 c := habe.trans hbce
      refine Or.inr ⟨hace, ?_⟩
      by_cases hop : openClass p0 a
      · have hopb : openClass p0 b := (openClass_congr p0 a b habe).mp hop
        have hs : sameSide p0 a b c := sameSide_of_classes p0 a b c habe hbce hop
        rcases hab2 with ⟨_, habp⟩ | ⟨habz, hablex⟩
        · rcases hbc2 with ⟨_, hbcp⟩ | ⟨hbcz, _⟩
          · exact Or.inl ⟨hop, crossAt_trans_pos p0 a b c hs (le_of_lt habp)
              (le_of_lt hbcp) (Or.inl habp)⟩
          · exact Or.inl ⟨hop, crossAt_trans_pos p0 a b c hs (le_of_lt habp)
              (le_of_eq (hbcz hopb).symm) (Or.inl habp)⟩
        · rcases hbc2 with ⟨_, hbcp⟩ | ⟨hbcz, hbclex⟩
          · exact Or.inl ⟨hop, crossAt_trans_pos p0 a b c hs
              (le_of_eq (habz hop).symm) (le_of_lt hbcp) (Or.inr hbcp)⟩
          · exact Or.inr ⟨fun _ => crossAt_trans_zero p0 a b c hs (habz hop) (hbcz hopb),
              lexLe_trans a b c hablex hbclex⟩
      · have hopb : ¬openClass p0 b := fun h => hop ((openClass_congr p0 a b habe).mpr h)
        rcases hab2 with ⟨h, _⟩ | ⟨_, hablex⟩
        · exact absurd h hop
        · rcases hbc2 with ⟨h, _⟩ | ⟨_, hbclex⟩
          · exact absurd h hopb
          · exact Or.inr ⟨fun h => absurd h hop, lexLe_trans a b c hablex hbclex⟩

instance sortRelTotal (p0 : Point) : IsTotal Point (SortRel p0) := by
  constructor
  intro a b
  unfold SortRel
  rcases Nat.lt_trichotomy (angClass p0 a) (angClass p0 b) with h | h | h
  · exact Or.inl (Or.inl h)
  · by_cases hop : openClass p0 a
    · have hopb : openClass p0 b := (openClass_congr p0 a b h).mp hop
      rcases lt_trichotomy 0 (crossAt p0 a b) with hc | hc | hc
      · exact Or.inl (Or.inr ⟨h, Or.inl ⟨hop, hc⟩⟩)
      · have hc' : crossAt p0 b a = 0 := by rw [crossAt_antisymm, ← hc]; ring
        rcases lexLe_total a b with hl | hl
        · exact Or.inl (Or.inr ⟨h, Or.inr ⟨fun _ => hc.symm, hl⟩⟩)
        · exact Or.inr (Or.inr ⟨h.symm, Or.inr ⟨fun _ => hc', hl⟩⟩)
      · have hc' : 0 < crossAt p0 b a := by rw [crossAt_antisymm]; linarith
        exact Or.inr (Or.inr ⟨h.symm, Or.inl ⟨hopb, hc'⟩⟩)
    · have hopb : ¬openClass p0 b := fun hx => hop ((openClass_congr p0 a b h).mpr hx)
      rcases lexLe_total a b with hl | hl
      · exact Or.inl (Or.inr ⟨h, Or.inr ⟨fun hx => absurd hx hop, hl⟩⟩)
      · exact Or.inr (Or.inr ⟨h.symm, Or.inr ⟨fun hx => absurd hx hopb, hl⟩⟩)
  · exact Or.inr (Or.inl h)

/-! ### The sweep loop, restated on stacks with the top at the head -/

/-- The pop phase of one sweep step as the specification describes it:
while the stack has at least two elements and the orientation of
(second-to-top, top, next) is a category different from `1`, pop the top.
Here the stack carries its top at the head of the list. -/
def specPop : List Point → Point → List Point
  | b :: a :: rest, point =>
    if orientation a b point ≠ 1 then specPop (a :: rest) point else b :: a :: rest
  | s, _ => s

lemma popLoopAux_reverse :
    ∀ (n : Nat) (s : List Point) (point : Point), s.length ≤ n →
      popLoopAux n s.reverse point = (specPop s point).reverse := by
  intro n
  induction n with
  | zero =>
    intro s point hs
    have h0 : s = [] := List.eq_nil_of_length_eq_zero (Nat.le_zero.mp hs)
    subst h0; rfl
  | succ n ih =>
    intro s point hs
    match s with
    | [] => rfl
    | [x] => simp [popLoopAux, specPop]
    | b :: a :: t =>
      have hrev : (b :: a :: t).reverse = (a :: t).reverse ++ [b] := by
        simp [List.reverse_cons]
      rw [hrev]
      simp only [popLoopAux]
      have hlen : 1 < ((a :: t).reverse ++ [b]).length := by simp
      rw [if_pos hlen, List.getLastD_concat, List.dropLast_concat, List.reverse_cons,
        List.getLastD_concat]
      by_cases hor : orientation a b point ≠ 1
      · rw [if_pos hor, ← List.reverse_cons, ih (a :: t) point (by simpa using hs)]
        have : specPop (b :: a :: t) point = specPop (a :: t) point := by
          simp only [specPop]; rw [if_pos hor]
        rw [this]
      · rw [if_neg hor]
        have : specPop (b :: a :: t) point = b :: a :: t := by
          simp only [specPop]; rw [if_neg hor]
        rw [this, hrev]
        simp [List.reverse_cons]

lemma popLoop_eq_specPop (hull : List Point) (point : Point) :
    popLoop hull point = (specPop hull.reverse point).reverse := by
  have h := popLoopAux_reverse hull.length hull.reverse point (by simp)
  rw [List.reverse_reverse] at h
  exact h

lemma sweep_foldl_reverse :
    ∀ (l : List Point) (acc : List Point),
      l.foldl (fun hull point => popLoop hull point ++ [point]) acc =
        (l.foldl (fun st point => point :: specPop st point) acc.reverse).reverse := by
  intro l
  induction l with
  | nil => intro acc; simp
  | cons q l ih =>
    intro acc
    simp only [List.foldl_cons]
    rw [ih]
    congr 1
    rw [List.reverse_append, popLoop_eq_specPop, List.reverse_reverse]
    rfl

/-! ### The Python `min` folds -/

/-- The lexicographic key `(y, x)` order: `m` is at least as low (then at
least as far left) as `q`. -/
def belowLeft (m q : Point) : Prop := m.2 < q.2 ∨ (m.2 = q.2 ∧ m.1 ≤ q.1)

instance (m q : Point) : Decidable (belowLeft m q) := by unfold belowLeft; infer_instance

lemma belowLeft_trans (a b c : Point) (h1 : belowLeft a b) (h2 : belowLeft b c) :
    belowLeft a c := by
  unfold belowLeft at *
  rcases h1 with h1 | ⟨h1, h1'⟩ <;> rcases h2 with h2 | ⟨h2, h2'⟩
  · exact Or.inl (lt_trans h1 h2)
  · exact Or.inl (h2 ▸ h1)
  · exact Or.inl (h1 ▸ h2)
  · exact Or.inr ⟨h1.trans h2, le_trans h1' h2'⟩

lemma pyMinYX_mem : ∀ (pts : List Point) (b : Point), pyMinYX b pts = b ∨ pyMinYX b pts ∈ pts := by
  intro pts
  induction pts with
  | nil => intro b; exact Or.inl rfl
  | cons q pts ih =>
    intro b
    have hstep : pyMinYX b (q :: pts) =
        pyMinYX (if q.2 < b.2 ∨ (q.2 = b.2 ∧ q.1 < b.1) then q else b) pts := rfl
    rw [hstep]
    rcases ih (if q.2 < b.2 ∨ (q.2 = b.2 ∧ q.1 < b.1) then q else b) with h | h
    · rw [h]
      split_ifs with hc
      · exact Or.inr (List.mem_cons_self q pts)
      · exact Or.inl rfl
    · exact Or.inr (List.mem_cons_of_mem q h)

lemma pyMinYX_min :
    ∀ (pts : List Point) (b : Point), ∀ q ∈ b :: pts, belowLeft (pyMinYX b pts) q := by
  intro pts
  induction pts with
  | nil =>
    intro b q hq
    rcases List.mem_singleton.mp hq with rfl
    exact Or.inr ⟨rfl, le_refl _⟩
  | cons z pts ih =>
    intro b q hq
    have hstep : pyMinYX b (z :: pts) =
        pyMinYX (if z.2 < b.2 ∨ (z.2 = b.2 ∧ z.1 < b.1) then z else b) pts := rfl
    rw [hstep]
    rcases List.mem_cons.mp hq with rfl | hq'
    · -- q = b
      split_ifs with hc
      · -- best replaced by z, and z is lex-below b
        have hz : belowLeft z q := by
          rcases hc with hc | ⟨hc, hc'⟩
          · exact Or.inl hc
          · exact Or.inr ⟨hc, le_of_lt hc'⟩
        exact belowLeft_trans _ z q (ih z z (List.mem_cons_self z pts)) hz
      · exact ih q q (List.mem_cons_self q pts)
    · rcases List.mem_cons.mp hq' with rfl | hq''
      · -- q = z
        split_ifs with hc
        · exact ih q q (List.mem_cons_self q pts)
        · -- best stays b, and b is lex-below-or-equal z
          push_neg at hc
          have hb : belowLeft b q := by
            rcases lt_or_eq_of_le hc.1 with h | h
            · exact Or.inl h
            · exact Or.inr ⟨h, hc.2 h.symm⟩
          exact belowLeft_trans _ b q (ih b b (List.mem_cons_self b pts)) hb
      · split_ifs with hc
        · exact ih z q (List.mem_cons_of_mem z hq'')
        · exact ih b q (List.mem_cons_of_mem b hq'')

/-! ### Order facts about the angle sort -/

lemma sortedPoints_sorted (p0 : Point) (points : List Point) :
    (sortedPoints p0 points).Pairwise (SortRel p0) :=
  List.sorted_insertionSort (SortRel p0) points

lemma sortedPoints_perm (p0 : Point) (points : List Point) :
    (sortedPoints p0 points).Perm points :=
  List.perm_insertionSort (SortRel p0) points

lemma angClass_self_one (p0 : Point) : angClass p0 p0 = 1 :=
  (angClass_one_iff p0 p0).mpr ⟨rfl, le_refl _⟩

lemma not_openClass_self (p0 : Point) : ¬openClass p0 p0 := fun h =>
  absurd rfl ((openClass_iff p0 p0).mp h)

/-- The pivot is minimal for the sort order among the points it is the
lexicographic `(y, x)` minimum of. -/
lemma sortRel_p0_min (p0 q : Point) (hq : belowLeft p0 q) : SortRel p0 p0 q := by
  unfold SortRel
  rcases hq with hq | ⟨hq, hq'⟩
  · exact Or.inl (by rw [angClass_self_one, (angClass_two_iff p0 q).mpr hq]; omega)
  · have hcq : angClass p0 q = 1 := (angClass_one_iff p0 q).mpr ⟨hq.symm, hq'⟩
    refine Or.inr ⟨by rw [angClass_self_one, hcq], Or.inr ⟨fun h => absurd h (not_openClass_self p0), ?_⟩⟩
    rcases lt_or_eq_of_le hq' with h | h
    · exact Or.inl h
    · exact Or.inr ⟨h, le_of_eq hq⟩

/-- Nothing sorts strictly before the pivot: anything related to it on the
left is the pivot itself. -/
lemma sortRel_p0_antisymm (p0 q : Point) (hq : belowLeft p0 q) (h : SortRel p0 q p0) :
    q = p0 := by
  have hy : p0.2 ≤ q.2 := by
    rcases hq with hq | ⟨hq, _⟩
    · exact le_of_lt hq
    · exact le_of_eq hq
  unfold SortRel at h
  rw [angClass_self_one] at h
  rcases h with h | ⟨heq, hP⟩
  · have h0 : angClass p0 q = 0 := by omega
    exact absurd ((angClass_zero_iff p0 q).mp h0) (not_lt.mpr hy)
  · obtain ⟨hqy, hqx⟩ := (angClass_one_iff p0 q).mp heq
    rcases hP with ⟨hop, _⟩ | ⟨_, hlex⟩
    · exact absurd hqy ((openClass_iff p0 q).mp hop)
    · rcases hlex with hlex | ⟨hlex, _⟩
      · exact absurd hlex (not_lt.mpr hqx)
      · exact Prod.ext hlex hqy

/-- In the upper closed half plane the sort order never goes clockwise:
the cross product of successive direction vectors is nonnegative. -/
lemma sortRel_crossAt_nonneg (p0 a b : Point) (ha : p0.2 ≤ a.2) (hb : p0.2 ≤ b.2)
    (h : SortRel p0 a b) : 0 ≤ crossAt p0 a b := by
  have ha0 : angClass p0 a ≠ 0 := fun h0 =>
    absurd ((angClass_zero_iff p0 a).mp h0) (not_lt.mpr ha)
  have hb0 : angClass p0 b ≠ 0 := fun h0 =>
    absurd ((angClass_zero_iff p0 b).mp h0) (not_lt.mpr hb)
  rcases h with hlt | ⟨heq, hP⟩
  · rcases angClass_cases p0 a with hca | hca | hca | hca
    · exact absurd hca ha0
    · -- band 1: a on the rightward horizontal ray
      obtain ⟨hya, hxa⟩ := (angClass_one_iff p0 a).mp hca
      rcases angClass_cases p0 b with hcb | hcb | hcb | hcb
      · exact absurd hcb hb0
      · rw [hca, hcb] at hlt; omega
      · have hyb := (angClass_two_iff p0 b).mp hcb
        have e2 : (a.2 - p0.2) * (b.1 - p0.1) = 0 := by rw [hya]; ring
        unfold crossAt
        have e1 := mul_nonneg (sub_nonneg.mpr hxa) (sub_nonneg.mpr (le_of_lt hyb))
        linarith
      · obtain ⟨hyb, _⟩ := (angClass_three_iff p0 b).mp hcb
        unfold crossAt; nlinarith
    · -- band 2: a strictly above; b must be in band 3
      have hya := (angClass_two_iff p0 a).mp hca
      rcases angClass_cases p0 b with hcb | hcb | hcb | hcb
      · exact absurd hcb hb0
      · rw [hca, hcb] at hlt; omega
      · rw [hca, hcb] at hlt; omega
      · obtain ⟨hyb, hxb⟩ := (angClass_three_iff p0 b).mp hcb
        have e1 : (a.1 - p0.1) * (b.2 - p0.2) = 0 := by rw [hyb]; ring
        have e2 := mul_neg_of_pos_of_neg (sub_pos.mpr hya) (sub_neg.mpr hxb)
        unfold crossAt
        linarith
    · -- band 3 is maximal, nothing lies strictly above it
      rcases angClass_cases p0 b with hcb | hcb | hcb | hcb <;> rw [hca, hcb] at hlt <;> omega
  · rcases hP with ⟨_, hpos⟩ | ⟨hz, _⟩
    · exact le_of_lt hpos
    · by_cases hop : openClass p0 a
      · exact le_of_eq (hz hop).symm
      · have hya : a.2 = p0.2 := by
          by_contra hne
          exact hop ((openClass_iff p0 a).mpr hne)
        have hyb : b.2 = p0.2 := by
          by_contra hne
          exact hop ((openClass_congr p0 a b heq).mpr ((openClass_iff p0 b).mpr hne))
        have e1 : (a.1 - p0.1) * (b.2 - p0.2) = 0 := by rw [hyb]; ring
        have e2 : (a.2 - p0.2) * (b.1 - p0.1) = 0 := by rw [hya]; ring
        unfold crossAt
        linarith

lemma orientation_ne_one (p0 a b : Point) (h : 0 ≤ crossAt p0 a b) :
    orientation p0 a b ≠ 1 := by
  unfold orientation
  have hval : (a.2 - p0.2) * (b.1 - a.1) - (a.1 - p0.1) * (b.2 - a.2) = -crossAt p0 a b := by
    unfold crossAt; ring
  rw [hval]
  split_ifs with h1 h2
  · decide
  · exact absurd h (by linarith)
  · decide

/-! ### The shape of the Graham scan output -/

lemma sweep_tail (x1 : Point) :
    ∀ (t : List Point) (w : Point),
      List.Pairwise (fun a b => orientation x1 a b ≠ 1) (w :: t) →
      t.foldl (fun st point => point :: specPop st point) [w, x1] = [t.getLastD w, x1] := by
  intro t
  induction t with
  | nil => intro w _; rfl
  | cons z t ih =>
    intro w hp
    rw [List.foldl_cons]
    have hwz : orientation x1 w z ≠ 1 :=
      (List.pairwise_cons.mp hp).1 z (List.mem_cons_self z t)
    have hstep : z :: specPop [w, x1] z = [z, x1] := by
      simp only [specPop]
      rw [if_pos hwz]
    rw [hstep, ih z (List.pairwise_cons.mp hp).2, List.getLastD_cons]

/-- For any input of length at least three, the sweep collapses: the
returned hull is exactly the pivot followed by the last element of the
angle-sorted sequence.  (The loop keeps a point only when the triple makes
category `1`, which the angular order never produces, so the stack never
grows past two elements.) -/
lemma graham_scan_structure (p : Point) (rest : List Point) (h3 : 3 ≤ (p :: rest).length) :
    ∃ w t, sortedPoints (pyMinYX p rest) (p :: rest) = pyMinYX p rest :: w :: t ∧
      graham_scan (p :: rest) = [pyMinYX p rest, t.getLastD w] := by
  obtain ⟨p0, hg⟩ : ∃ p0, pyMinYX p rest = p0 := ⟨_, rfl⟩
  rw [hg]
  have hperm := sortedPoints_perm p0 (p :: rest)
  have hlen : (sortedPoints p0 (p :: rest)).length = (p :: rest).length := hperm.length_eq
  obtain ⟨x1, w, t, hs⟩ : ∃ x1 w t, sortedPoints p0 (p :: rest) = x1 :: w :: t := by
    match hm : sortedPoints p0 (p :: rest) with
    | [] => rw [hm] at hlen; rw [← hlen] at h3; simp at h3
    | [x] => rw [hm] at hlen; rw [← hlen] at h3; simp at h3
    | x1 :: w :: t => exact ⟨x1, w, t, rfl⟩
  have hmem : p0 ∈ p :: rest := by
    rcases pyMinYX_mem rest p with h | h
    · rw [← hg, h]; exact List.mem_cons_self p rest
    · rw [← hg]; exact List.mem_cons_of_mem p h
  have hmin : ∀ q ∈ p :: rest, belowLeft p0 q := by
    intro q hq
    rw [← hg]
    exact pyMinYX_min rest p q hq
  have hx1 : x1 = p0 := by
    have hp0s : p0 ∈ sortedPoints p0 (p :: rest) := hperm.mem_iff.mpr hmem
    rw [hs] at hp0s
    rcases List.mem_cons.mp hp0s with h | h
    · exact h.symm
    · have hpair := sortedPoints_sorted p0 (p :: rest)
      rw [hs] at hpair
      have hrel : SortRel p0 x1 p0 := (List.pairwise_cons.mp hpair).1 p0 h
      have hx1mem : x1 ∈ p :: rest :=
        hperm.mem_iff.mp (by rw [hs]; exact List.mem_cons_self _ _)
      exact sortRel_p0_antisymm p0 x1 (hmin x1 hx1mem) hrel
  rw [hx1] at hs
  have hpair := sortedPoints_sorted p0 (p :: rest)
  rw [hs] at hpair
  have hup : ∀ q ∈ sortedPoints p0 (p :: rest), p0.2 ≤ q.2 := by
    intro q hq
    rcases hmin q (hperm.mem_iff.mp hq) with h | ⟨h, _⟩
    · exact le_of_lt h
    · exact le_of_eq h
  have hor : List.Pairwise (fun a b => orientation p0 a b ≠ 1) (w :: t) := by
    refine List.Pairwise.imp_of_mem ?_ (List.pairwise_cons.mp hpair).2
    intro a b hma hmb hrel
    have ha : p0.2 ≤ a.2 := hup a (by rw [hs]; exact List.mem_cons_of_mem _ hma)
    have hb : p0.2 ≤ b.2 := hup b (by rw [hs]; exact List.mem_cons_of_mem _ hmb)
    exact orientation_ne_one p0 a b (sortRel_crossAt_nonneg p0 a b ha hb hrel)
  refine ⟨w, t, hs, ?_⟩
  have hns : ¬((p :: rest).length < 3) := not_lt.mpr h3
  simp only [graham_scan]
  rw [if_neg hns, hg, sweep_foldl_reverse, hs]
  show (List.foldl (fun st point => point :: specPop st point) [w, p0] t).reverse =
    [p0, t.getLastD w]
  rw [sweep_tail p0 t w hor]
  rfl

/-! ### The farthest-point scan of `quickhull_util` -/

/-- Once the scan state holds distance `abs side_flag`, it never changes:
every further qualifying point has exactly the same distance, and the
update needs a strictly larger one. -/
lemma findFarthest_keep (p1 p2 : Point) (flag : ℚ) (m : Point) :
    ∀ pts : List Point,
      pts.foldl
        (fun st p =>
          if side p1 p2 p = flag ∧ st.1 < |side p1 p2 p| then (|side p1 p2 p|, some p) else st)
        (|flag|, some m) = (|flag|, some m) := by
  intro pts
  induction pts with
  | nil => rfl
  | cons q pts ih =>
    rw [List.foldl_cons]
    have hno : ¬(side p1 p2 q = flag ∧ |flag| < |side p1 p2 q|) := by
      rintro ⟨h1, h2⟩
      rw [h1] at h2
      exact lt_irrefl _ h2
    rw [if_neg hno]
    exact ih

/-- For a nonzero flag the scan returns the first qualifying point: every
qualifying point has `abs side = abs side_flag`, so the first one to pass
the strict test wins and is never replaced. -/
lemma findFarthest_eq_find (p1 p2 : Point) (flag : ℚ) (hflag : flag ≠ 0) :
    ∀ pts : List Point,
      findFarthest pts p1 p2 flag = pts.find? (fun q => decide (side p1 p2 q = flag)) := by
  intro pts
  induction pts with
  | nil => rfl
  | cons q pts ih =>
    by_cases h : side p1 p2 q = flag
    · have hcond : side p1 p2 q = flag ∧ (0 : ℚ) < |side p1 p2 q| := by
        refine ⟨h, ?_⟩
        rw [h]
        exact abs_pos.mpr hflag
      have hstep : findFarthest (q :: pts) p1 p2 flag =
          (pts.foldl
            (fun st p =>
              if side p1 p2 p = flag ∧ st.1 < |side p1 p2 p| then (|side p1 p2 p|, some p)
              else st)
            (|side p1 p2 q|, some q)).2 := by
        unfold findFarthest
        rw [List.foldl_cons, if_pos hcond]
      rw [hstep, h, findFarthest_keep, List.find?_cons_of_pos]
      simp [h]
    · have hstep : findFarthest (q :: pts) p1 p2 flag = findFarthest pts p1 p2 flag := by
        unfold findFarthest
        rw [List.foldl_cons, if_neg (fun hc => h hc.1)]
      rw [hstep, ih, List.find?_cons_of_neg]
      simp [h]

lemma find?_eq_head_filter (p : Point → Bool) :
    ∀ l : List Point, l.find? p = (l.filter p).head? := by
  intro l
  induction l with
  | nil => rfl
  | cons a l ih =>
    by_cases h : p a
    · rw [List.find?_cons_of_pos _ h, List.filter_cons_of_pos h, List.head?_cons]
    · rw [List.find?_cons_of_neg _ h, List.filter_cons_of_neg h, ih]

/-- One-step unfolding of the fuelled `quickhull_util`. -/
lemma quickhull_util_succ (fuel : Nat) (points : List Point) (p1 p2 : Point) (flag : ℚ) :
    quickhull_util (fuel + 1) points p1 p2 flag =
      match findFarthest points p1 p2 flag with
      | none => some []
      | some max_point =>
        match quickhull_util fuel points p1 max_point (-(side p1 max_point p2)),
              quickhull_util fuel points max_point p2 (-(side max_point p2 p1)) with
        | some l, some r => some (l ++ [max_point] ++ r)
        | _, _ => none := rfl

/-- Unfolding of `quickhull` on a long enough list. -/
lemma quickhull_cons (fuel : Nat) (p : Point) (rest : List Point)
    (h : ¬((p :: rest).length < 3)) :
    quickhull fuel (p :: rest) =
      match quickhull_util fuel (p :: rest) (pyMinX p rest) (pyMaxX p rest) 1,
            quickhull_util fuel (p :: rest) (pyMinX p rest) (pyMaxX p rest) (-1) with
      | some upper, some lower => some (upper ++ lower ++ [pyMinX p rest, pyMaxX p rest])
      | _, _ => none := by
  simp only [quickhull]
  rw [if_neg h]

/-! ### Spec-side characterisation of the baseline endpoints -/

/-- Formalisation of the specification's "`min_point` = first-encountered
point of smallest x": `m` has minimal x and occurs in the list before
every other point of minimal x (everything strictly earlier has strictly
larger x). -/
def isFirstMinX (points : List Point) (m : Point) : Prop :=
  (∀ q ∈ points, m.1 ≤ q.1) ∧ ∃ l1 l2, points = l1 ++ m :: l2 ∧ ∀ q ∈ l1, m.1 < q.1

/-- Formalisation of "`max_point` = first-encountered point of largest x". -/
def isFirstMaxX (points : List Point) (m : Point) : Prop :=
  (∀ q ∈ points, q.1 ≤ m.1) ∧ ∃ l1 l2, points = l1 ++ m :: l2 ∧ ∀ q ∈ l1, q.1 < m.1

lemma pyMinX_le : ∀ (pts : List Point) (b : Point),
    (pyMinX b pts).1 ≤ b.1 ∧ ∀ q ∈ pts, (pyMinX b pts).1 ≤ q.1 := by
  intro pts
  induction pts with
  | nil => intro b; exact ⟨le_refl _, fun q hq => absurd hq (List.not_mem_nil q)⟩
  | cons z pts ih =>
    intro b
    have hstep : pyMinX b (z :: pts) = pyMinX (if z.1 < b.1 then z else b) pts := rfl
    rw [hstep]
    split_ifs with hc
    · refine ⟨le_trans (ih z).1 (le_of_lt hc), ?_⟩
      intro q hq
      rcases List.mem_cons.mp hq with rfl | hq'
      · exact (ih q).1
      · exact (ih z).2 q hq'
    · refine ⟨(ih b).1, ?_⟩
      intro q hq
      rcases List.mem_cons.mp hq with rfl | hq'
      · exact le_trans (ih b).1 (not_lt.mp hc)
      · exact (ih b).2 q hq'

lemma pyMinX_first : ∀ (pts : List Point) (b : Point),
    pyMinX b pts = b ∨
      ((pyMinX b pts).1 < b.1 ∧
        ∃ l1 l2, pts = l1 ++ pyMinX b pts :: l2 ∧ ∀ q ∈ l1, (pyMinX b pts).1 < q.1) := by
  intro pts
  induction pts with
  | nil => intro b; exact Or.inl rfl
  | cons z pts ih =>
    intro b
    have hstep : pyMinX b (z :: pts) = pyMinX (if z.1 < b.1 then z else b) pts := rfl
    rw [hstep]
    split_ifs with hc
    · rcases ih z with h | ⟨hlt, l1, l2, hsplit, hl1⟩
      · refine Or.inr ⟨by rw [h]; exact hc, [], pts, ?_, fun q hq => absurd hq (List.not_mem_nil q)⟩
        rw [h, List.nil_append]
      · refine Or.inr ⟨lt_trans hlt hc, z :: l1, l2, ?_, ?_⟩
        · rw [List.cons_append, ← hsplit]
        · intro q hq
          rcases List.mem_cons.mp hq with rfl | hq'
          · exact hlt
          · exact hl1 q hq'
    · rcases ih b with h | ⟨hlt, l1, l2, hsplit, hl1⟩
      · exact Or.inl h
      · refine Or.inr ⟨hlt, z :: l1, l2, ?_, ?_⟩
        · rw [List.cons_append, ← hsplit]
        · intro q hq
          rcases List.mem_cons.mp hq with rfl | hq'
          · exact lt_of_lt_of_le hlt (not_lt.mp hc)
          · exact hl1 q hq'

lemma pyMinX_isFirstMinX (p : Point) (rest : List Point) :
    isFirstMinX (p :: rest) (pyMinX p rest) := by
  refine ⟨?_, ?_⟩
  · intro q hq
    rcases List.mem_cons.mp hq with rfl | hq'
    · exact (pyMinX_le rest q).1
    · exact (pyMinX_le rest p).2 q hq'
  · rcases pyMinX_first rest p with h | ⟨hlt, l1, l2, hsplit, hl1⟩
    · exact ⟨[], rest, by rw [List.nil_append, h], fun q hq => absurd hq (List.not_mem_nil q)⟩
    · refine ⟨p :: l1, l2, by rw [List.cons_append, ← hsplit], ?_⟩
      intro q hq
      rcases List.mem_cons.mp hq with rfl | hq'
      · exact hlt
      · exact hl1 q hq'

lemma pyMaxX_le : ∀ (pts : List Point) (b : Point),
    b.1 ≤ (pyMaxX b pts).1 ∧ ∀ q ∈ pts, q.1 ≤ (pyMaxX b pts).1 := by
  intro pts
  induction pts with
  | nil => intro b; exact ⟨le_refl _, fun q hq => absurd hq (List.not_mem_nil q)⟩
  | cons z pts ih =>
    intro b
    have hstep : pyMaxX b (z :: pts) = pyMaxX (if b.1 < z.1 then z else b) pts := rfl
    rw [hstep]
    split_ifs with hc
    · refine ⟨le_trans (le_of_lt hc) (ih z).1, ?_⟩
      intro q hq
      rcases List.mem_cons.mp hq with rfl | hq'
      · exact (ih q).1
      · exact (ih z).2 q hq'
    · refine ⟨(ih b).1, ?_⟩
      intro q hq
      rcases List.mem_cons.mp hq with rfl | hq'
      · exact le_trans (not_lt.mp hc) (ih b).1
      · exact (ih b).2 q hq'

lemma pyMaxX_first : ∀ (pts : List Point) (b : Point),
    pyMaxX b pts = b ∨
      (b.1 < (pyMaxX b pts).1 ∧
        ∃ l1 l2, pts = l1 ++ pyMaxX b pts :: l2 ∧ ∀ q ∈ l1, q.1 < (pyMaxX b pts).1) := by
  intro pts
  induction pts with
  | nil => intro b; exact Or.inl rfl
  | cons z pts ih =>
    intro b
    have hstep : pyMaxX b (z :: pts) = pyMaxX (if b.1 < z.1 then z else b) pts := rfl
    rw [hstep]
    split_ifs with hc
    · rcases ih z with h | ⟨hlt, l1, l2, hsplit, hl1⟩
      · refine Or.inr ⟨by rw [h]; exact hc, [], pts, ?_, fun q hq => absurd hq (List.not_mem_nil q)⟩
        rw [h, List.nil_append]
      · refine Or.inr ⟨lt_trans hc hlt, z :: l1, l2, ?_, ?_⟩
        · rw [List.cons_append, ← hsplit]
        · intro q hq
          rcases List.mem_cons.mp hq with rfl | hq'
          · exact hlt
          · exact hl1 q hq'
    · rcases ih b with h | ⟨hlt, l1, l2, hsplit, hl1⟩
      · exact Or.inl h
      · refine Or.inr ⟨hlt, z :: l1, l2, ?_, ?_⟩
        · rw [List.cons_append, ← hsplit]
        · intro q hq
          rcases List.mem_cons.mp hq with rfl | hq'
          · exact lt_of_le_of_lt (not_lt.mp hc) hlt
          · exact hl1 q hq'

lemma pyMaxX_isFirstMaxX (p : Point) (rest : List Point) :
    isFirstMaxX (p :: rest) (pyMaxX p rest) := by
  refine ⟨?_, ?_⟩
  · intro q hq
    rcases List.mem_cons.mp hq with rfl | hq'
    · exact (pyMaxX_le rest q).1
    · exact (pyMaxX_le rest p).2 q hq'
  · rcases pyMaxX_first rest p with h | ⟨hlt, l1, l2, hsplit, hl1⟩
    · exact ⟨[], rest, by rw [List.nil_append, h], fun q hq => absurd hq (List.not_mem_nil q)⟩
    · refine ⟨p :: l1, l2, by rw [List.cons_append, ← hsplit], ?_⟩
      intro q hq
      rcases List.mem_cons.mp hq with rfl | hq'
      · exact hlt
      · exact hl1 q hq'

/-! ### A concrete input on which the Quickhull recursion cycles forever -/

/-- Five points on which `quickhull` does not terminate.  With
`min_point = (-1, -1)` and `max_point = (2, 0)`, the upper recursion picks
`(1, 0)` and then its right child enters the states
`((1,0),(2,0)) → ((1,0),(1,1)) → ((1,0),(0,-1)) → ((1,0),(2,0)) → ...`,
all with side flag `1`, because the raw `side` values of the successive
qualifying points are each exactly `1`. -/
def cyclePoints : List Point :=
  [((1:ℚ), (0:ℚ)), ((2:ℚ), (0:ℚ)), ((1:ℚ), (1:ℚ)), ((0:ℚ), (-1:ℚ)), ((-1:ℚ), (-1:ℚ))]

lemma quickhull_util_found (fuel : Nat) (points : List Point) (p1 p2 m : Point) (flag : ℚ)
    (h : findFarthest points p1 p2 flag = some m) :
    quickhull_util (fuel + 1) points p1 p2 flag =
      match quickhull_util fuel points p1 m (-(side p1 m p2)),
            quickhull_util fuel points m p2 (-(side m p2 p1)) with
      | some l, some r => some (l ++ [m] ++ r)
      | _, _ => none := by
  rw [quickhull_util_succ, h]

lemma quickhull_util_empty (fuel : Nat) (points : List Point) (p1 p2 : Point) (flag : ℚ)
    (h : findFarthest points p1 p2 flag = none) :
    quickhull_util (fuel + 1) points p1 p2 flag = some [] := by
  rw [quickhull_util_succ, h]

lemma cycle_none : ∀ fuel : Nat,
    quickhull_util fuel cyclePoints ((1:ℚ), (0:ℚ)) ((2:ℚ), (0:ℚ)) 1 = none ∧
    quickhull_util fuel cyclePoints ((1:ℚ), (0:ℚ)) ((1:ℚ), (1:ℚ)) 1 = none ∧
    quickhull_util fuel cyclePoints ((1:ℚ), (0:ℚ)) ((0:ℚ), (-1:ℚ)) 1 = none := by
  intro fuel
  induction fuel with
  | zero => exact ⟨rfl, rfl, rfl⟩
  | succ n ih =>
    refine ⟨?_, ?_, ?_⟩
    · rw [quickhull_util_found n cyclePoints _ _ ((1:ℚ), (1:ℚ)) 1
          (by norm_num [findFarthest, side, cyclePoints]),
        show -(side ((1:ℚ), (0:ℚ)) ((1:ℚ), (1:ℚ)) ((2:ℚ), (0:ℚ))) = 1 from by norm_num [side],
        ih.2.1]
    · rw [quickhull_util_found n cyclePoints _ _ ((0:ℚ), (-1:ℚ)) 1
          (by norm_num [findFarthest, side, cyclePoints]),
        show -(side ((1:ℚ), (0:ℚ)) ((0:ℚ), (-1:ℚ)) ((1:ℚ), (1:ℚ))) = 1 from by norm_num [side],
        ih.2.2]
    · rw [quickhull_util_found n cyclePoints _ _ ((2:ℚ), (0:ℚ)) 1
          (by norm_num [findFarthest, side, cyclePoints]),
        show -(side ((1:ℚ), (0:ℚ)) ((2:ℚ), (0:ℚ)) ((0:ℚ), (-1:ℚ))) = 1 from by norm_num [side],
        ih.1]

/-- The top-level upper recursion of `quickhull` on `cyclePoints` never
returns, for any recursion budget. -/
lemma cycle_top_none : ∀ fuel : Nat,
    quickhull_util fuel cyclePoints ((-1:ℚ), (-1:ℚ)) ((2:ℚ), (0:ℚ)) 1 = none := by
  intro fuel
  cases fuel with
  | zero => rfl
  | succ n =>
    rw [quickhull_util_found n cyclePoints _ _ ((1:ℚ), (0:ℚ)) 1
        (by norm_num [findFarthest, side, cyclePoints]),
      show -(side ((1:ℚ), (0:ℚ)) ((2:ℚ), (0:ℚ)) ((-1:ℚ), (-1:ℚ))) = 1 from by norm_num [side],
      (cycle_none n).1]
    cases quickhull_util n cyclePoints ((-1:ℚ), (-1:ℚ)) ((1:ℚ), (0:ℚ))
        (-(side ((-1:ℚ), (-1:ℚ)) ((1:ℚ), (0:ℚ)) ((2:ℚ), (0:ℚ)))) <;> rfl

/-! ### Claim theorems -/

/-- C9: for fewer than three points (empty list and singletons included)
both algorithms return the input unchanged, in the original order; in
particular the empty input yields an empty hull.  The `quickhull` result
does not even consume fuel on this path. -/
theorem c9_small_inputs (points : List Point) (fuel : Nat) (h : points.length < 3) :
    graham_scan points = points ∧ quickhull fuel points = some points := by
  cases points with
  | nil => exact ⟨rfl, rfl⟩
  | cons p rest =>
    constructor
    · simp only [graham_scan]
      rw [if_pos h]
    · simp only [quickhull]
      rw [if_pos h]

theorem c9_small_inputs_witness :
    ([((5:ℚ), (5:ℚ))] : List Point).length < 3 ∧
      graham_scan [((5:ℚ), (5:ℚ))] = [((5:ℚ), (5:ℚ))] ∧
      quickhull 0 [((5:ℚ), (5:ℚ))] = some [((5:ℚ), (5:ℚ))] :=
  ⟨by norm_num, c9_small_inputs [((5:ℚ), (5:ℚ))] 0 (by norm_num)⟩

/-- C10: when all points share one x-coordinate, both the `min` and the
`max` baseline folds keep the first point `p` (Python's `min` and `max`
replace only on a strictly better key), every `side` value against the
degenerate baseline `(p, p)` is `0`, so both recursions contribute
nothing and the hull is the duplicated pair `[p, p]`. -/
theorem c10_vertical_line (p : Point) (rest : List Point) (fuel : Nat)
    (h3 : 3 ≤ (p :: rest).length) (hx : ∀ q ∈ p :: rest, q.1 = p.1) :
    quickhull (fuel + 1) (p :: rest) = some [p, p] := by
  have hmn : pyMinX p rest = p := by
    rcases pyMinX_first rest p with h | ⟨hlt, l1, l2, hsplit, _⟩
    · exact h
    · have hmem0 : pyMinX p rest ∈ l1 ++ pyMinX p rest :: l2 :=
        List.mem_append_right _ (List.mem_cons_self _ _)
      rw [← hsplit] at hmem0
      rw [hx _ (List.mem_cons_of_mem p hmem0)] at hlt
      exact absurd hlt (lt_irrefl _)
  have hmx : pyMaxX p rest = p := by
    rcases pyMaxX_first rest p with h | ⟨hlt, l1, l2, hsplit, _⟩
    · exact h
    · have hmem0 : pyMaxX p rest ∈ l1 ++ pyMaxX p rest :: l2 :=
        List.mem_append_right _ (List.mem_cons_self _ _)
      rw [← hsplit] at hmem0
      rw [hx _ (List.mem_cons_of_mem p hmem0)] at hlt
      exact absurd hlt (lt_irrefl _)
  have hside : ∀ flag : ℚ, flag ≠ 0 → findFarthest (p :: rest) p p flag = none := by
    intro flag hflag
    rw [findFarthest_eq_find p p flag hflag]
    apply List.find?_eq_none.mpr
    intro x _
    have h0 : side p p x = 0 := by unfold side; ring
    simp only [decide_eq_true_eq, h0]
    exact fun h => hflag h.symm
  rw [quickhull_cons (fuel + 1) p rest (not_lt.mpr h3), hmn, hmx,
    quickhull_util_empty fuel (p :: rest) p p 1 (hside 1 (by norm_num)),
    quickhull_util_empty fuel (p :: rest) p p (-1) (hside (-1) (by norm_num))]
  rfl

theorem c10_vertical_line_witness :
    3 ≤ ([((0:ℚ), (0:ℚ)), ((0:ℚ), (1:ℚ)), ((0:ℚ), (2:ℚ))] : List Point).length ∧
      quickhull 1 [((0:ℚ), (0:ℚ)), ((0:ℚ), (1:ℚ)), ((0:ℚ), (2:ℚ))] =
        some [((0:ℚ), (0:ℚ)), ((0:ℚ), (0:ℚ))] :=
  ⟨by norm_num,
    c10_vertical_line ((0:ℚ), (0:ℚ)) [((0:ℚ), (1:ℚ)), ((0:ℚ), (2:ℚ))] 0 (by norm_num)
      (by
        intro q hq
        simp only [List.mem_cons, List.not_mem_nil, or_false] at hq
        rcases hq with rfl | rfl | rfl <;> norm_num)⟩

/-- C8: the claim that the recursion always reaches its base case is
false: on `cyclePoints` the upper recursion enters a three-state cycle
and `quickhull` never returns, whatever recursion budget it is given.  In
the fuel embedding this reads: the result is `none` for every fuel. -/
theorem c8_nontermination : ∀ fuel : Nat, quickhull fuel cyclePoints = none := by
  intro fuel
  have hlit : cyclePoints = ((1:ℚ), (0:ℚ)) ::
      [((2:ℚ), (0:ℚ)), ((1:ℚ), (1:ℚ)), ((0:ℚ), (-1:ℚ)), ((-1:ℚ), (-1:ℚ))] := rfl
  rw [hlit, quickhull_cons fuel _ _ (by norm_num),
    show pyMinX ((1:ℚ), (0:ℚ))
        [((2:ℚ), (0:ℚ)), ((1:ℚ), (1:ℚ)), ((0:ℚ), (-1:ℚ)), ((-1:ℚ), (-1:ℚ))] =
      ((-1:ℚ), (-1:ℚ)) from by norm_num [pyMinX],
    show pyMaxX ((1:ℚ), (0:ℚ))
        [((2:ℚ), (0:ℚ)), ((1:ℚ), (1:ℚ)), ((0:ℚ), (-1:ℚ)), ((-1:ℚ), (-1:ℚ))] =
      ((2:ℚ), (0:ℚ)) from by norm_num [pyMaxX],
    ← hlit, cycle_top_none fuel]

/-- C5: the sweep of `graham_scan` is exactly the specified stack loop:
fold the angle-sorted sequence, popping while the stack has at least two
elements and the orientation of (second-to-top, top, next) is not `1`,
then pushing; the final stack (written here with its top at the head,
hence the final `reverse`) is returned. -/
theorem c5_sweep_refinement (p : Point) (rest : List Point) (h3 : 3 ≤ (p :: rest).length) :
    graham_scan (p :: rest) =
      ((sortedPoints (pyMinYX p rest) (p :: rest)).foldl
        (fun st point => point :: specPop st point) []).reverse := by
  simp only [graham_scan]
  rw [if_neg (not_lt.mpr h3), sweep_foldl_reverse]
  rfl

theorem c5_sweep_refinement_witness :
    3 ≤ ([((0:ℚ), (0:ℚ)), ((4:ℚ), (0:ℚ)), ((1:ℚ), (3:ℚ))] : List Point).length ∧
      graham_scan [((0:ℚ), (0:ℚ)), ((4:ℚ), (0:ℚ)), ((1:ℚ), (3:ℚ))] =
        ((sortedPoints (pyMinYX ((0:ℚ), (0:ℚ)) [((4:ℚ), (0:ℚ)), ((1:ℚ), (3:ℚ))])
            [((0:ℚ), (0:ℚ)), ((4:ℚ), (0:ℚ)), ((1:ℚ), (3:ℚ))]).foldl
          (fun st point => point :: specPop st point) []).reverse :=
  ⟨by norm_num,
    c5_sweep_refinement ((0:ℚ), (0:ℚ)) [((4:ℚ), (0:ℚ)), ((1:ℚ), (3:ℚ))] (by norm_num)⟩

/-- C6: for at least three points, `quickhull` takes as `min_point` the
first-encountered point of smallest x and as `max_point` the
first-encountered point of largest x, and its output is assembled, for
whatever the two recursions return, as upper result (flag `+1`), then
lower result (flag `-1`), then `min_point`, then `max_point` last. -/
theorem c6_assembly (fuel : Nat) (p : Point) (rest : List Point)
    (h3 : 3 ≤ (p :: rest).length) :
    ∃ mn mx, isFirstMinX (p :: rest) mn ∧ isFirstMaxX (p :: rest) mx ∧
      quickhull fuel (p :: rest) =
        match quickhull_util fuel (p :: rest) mn mx 1,
              quickhull_util fuel (p :: rest) mn mx (-1) with
        | some upper, some lower => some (upper ++ lower ++ [mn, mx])
        | _, _ => none :=
  ⟨pyMinX p rest, pyMaxX p rest, pyMinX_isFirstMinX p rest, pyMaxX_isFirstMaxX p rest,
    quickhull_cons fuel p rest (not_lt.mpr h3)⟩

theorem c6_assembly_witness :
    3 ≤ ([((0:ℚ), (0:ℚ)), ((3:ℚ), (0:ℚ)), ((1:ℚ), (2:ℚ)), ((1:ℚ), (-2:ℚ))] : List Point).length ∧
      (∃ mn mx,
        isFirstMinX [((0:ℚ), (0:ℚ)), ((3:ℚ), (0:ℚ)), ((1:ℚ), (2:ℚ)), ((1:ℚ), (-2:ℚ))] mn ∧
        isFirstMaxX [((0:ℚ), (0:ℚ)), ((3:ℚ), (0:ℚ)), ((1:ℚ), (2:ℚ)), ((1:ℚ), (-2:ℚ))] mx ∧
        quickhull 9 [((0:ℚ), (0:ℚ)), ((3:ℚ), (0:ℚ)), ((1:ℚ), (2:ℚ)), ((1:ℚ), (-2:ℚ))] =
          match quickhull_util 9
                  [((0:ℚ), (0:ℚ)), ((3:ℚ), (0:ℚ)), ((1:ℚ), (2:ℚ)), ((1:ℚ), (-2:ℚ))] mn mx 1,
                quickhull_util 9
                  [((0:ℚ), (0:ℚ)), ((3:ℚ), (0:ℚ)), ((1:ℚ), (2:ℚ)), ((1:ℚ), (-2:ℚ))] mn mx
                  (-1) with
          | some upper, some lower => some (upper ++ lower ++ [mn, mx])
          | _, _ => none) :=
  ⟨by norm_num,
    c6_assembly 9 ((0:ℚ), (0:ℚ)) [((3:ℚ), (0:ℚ)), ((1:ℚ), (2:ℚ)), ((1:ℚ), (-2:ℚ))]
      (by norm_num)⟩

/-- Consecutive-triple condition from the specification of Graham's
output: each three successive output vertices make a proper left turn,
i.e. orientation category `2` (counter-clockwise). -/
def ccwTriples : List Point → Prop
  | a :: b :: c :: t => orientation a b c = 2 ∧ ccwTriples (b :: c :: t)
  | _ => True

instance ccwTriplesDec : (l : List Point) → Decidable (ccwTriples l)
  | [] => isTrue True.intro
  | [_] => isTrue True.intro
  | [_, _] => isTrue True.intro
  | a :: b :: c :: t =>
    have : Decidable (ccwTriples (b :: c :: t)) := ccwTriplesDec (b :: c :: t)
    by unfold ccwTriples; infer_instance

/-- C4 counterexample: a three-fold repeated point is a legal input of
size three, and the hull Graham scan returns for it contains a repeated
point, contradicting the claim's "contains no repeated points". -/
theorem c4_counterexample :
    3 ≤ ([((0:ℚ), (0:ℚ)), ((0:ℚ), (0:ℚ)), ((0:ℚ), (0:ℚ))] : List Point).length ∧
      graham_scan [((0:ℚ), (0:ℚ)), ((0:ℚ), (0:ℚ)), ((0:ℚ), (0:ℚ))] =
        [((0:ℚ), (0:ℚ)), ((0:ℚ), (0:ℚ))] ∧
      ¬(graham_scan [((0:ℚ), (0:ℚ)), ((0:ℚ), (0:ℚ)), ((0:ℚ), (0:ℚ))]).Nodup := by
  have hg : graham_scan [((0:ℚ), (0:ℚ)), ((0:ℚ), (0:ℚ)), ((0:ℚ), (0:ℚ))] =
      [((0:ℚ), (0:ℚ)), ((0:ℚ), (0:ℚ))] := by
    norm_num [graham_scan, pyMinYX, sortedPoints, List.insertionSort, List.orderedInsert,
      SortRel, angClass, crossAt, openClass, lexLe, popLoop, popLoopAux, orientation]
  refine ⟨by norm_num, hg, ?_⟩
  rw [hg]
  simp [List.nodup_cons]

/-- C4 amended: for any input of three or more points, the output starts
at the lowest (ties: leftmost) input point, all consecutive triples are
proper left turns (vacuously so: the output always has exactly two
entries), and the output has no repeated points provided the input
points are pairwise distinct. -/
theorem c4_amended (p : Point) (rest : List Point) (h3 : 3 ≤ (p :: rest).length) :
    (∃ q, q ∈ p :: rest ∧ (∀ r ∈ p :: rest, belowLeft q r) ∧
      (graham_scan (p :: rest)).head? = some q) ∧
    ccwTriples (graham_scan (p :: rest)) ∧
    ((p :: rest).Nodup → (graham_scan (p :: rest)).Nodup) := by
  obtain ⟨w, t, hs, hg⟩ := graham_scan_structure p rest h3
  have hmem : pyMinYX p rest ∈ p :: rest := by
    rcases pyMinYX_mem rest p with h | h
    · rw [h]; exact List.mem_cons_self p rest
    · exact List.mem_cons_of_mem p h
  refine ⟨⟨pyMinYX p rest, hmem, pyMinYX_min rest p, by rw [hg]; rfl⟩,
    by rw [hg]; exact True.intro, ?_⟩
  intro hnd
  rw [hg]
  have hsnd : (sortedPoints (pyMinYX p rest) (p :: rest)).Nodup :=
    ((sortedPoints_perm (pyMinYX p rest) (p :: rest)).nodup_iff).mpr hnd
  rw [hs] at hsnd
  have hlast : t.getLastD w ∈ w :: t := List.getLastD_mem_cons t w
  have hne : pyMinYX p rest ≠ t.getLastD w := by
    intro he
    exact (List.nodup_cons.mp hsnd).1 (he ▸ hlast)
  rw [List.getLastD_eq_getLast?] at hne
  simp [List.nodup_cons, hne]

theorem c4_amended_witness :
    3 ≤ ([((0:ℚ), (0:ℚ)), ((3:ℚ), (0:ℚ)), ((1:ℚ), (2:ℚ))] : List Point).length ∧
      ((∃ q, q ∈ [((0:ℚ), (0:ℚ)), ((3:ℚ), (0:ℚ)), ((1:ℚ), (2:ℚ))] ∧
          (∀ r ∈ [((0:ℚ), (0:ℚ)), ((3:ℚ), (0:ℚ)), ((1:ℚ), (2:ℚ))], belowLeft q r) ∧
          (graham_scan [((0:ℚ), (0:ℚ)), ((3:ℚ), (0:ℚ)), ((1:ℚ), (2:ℚ))]).head? = some q) ∧
        ccwTriples (graham_scan [((0:ℚ), (0:ℚ)), ((3:ℚ), (0:ℚ)), ((1:ℚ), (2:ℚ))]) ∧
        (([((0:ℚ), (0:ℚ)), ((3:ℚ), (0:ℚ)), ((1:ℚ), (2:ℚ))] : List Point).Nodup →
          (graham_scan [((0:ℚ), (0:ℚ)), ((3:ℚ), (0:ℚ)), ((1:ℚ), (2:ℚ))]).Nodup)) :=
  ⟨by norm_num, c4_amended ((0:ℚ), (0:ℚ)) [((3:ℚ), (0:ℚ)), ((1:ℚ), (2:ℚ))] (by norm_num)⟩

/-- A triangle on which the two algorithms disagree (and both are wrong):
its true hull has all three vertices. -/
def triPoints : List Point := [((0:ℚ), (0:ℚ)), ((2:ℚ), (0:ℚ)), ((1:ℚ), (1:ℚ))]

/-- C1: the two vertex sets are not equal for every input.  On the
triangle `triPoints`, Graham scan returns `[(0,0), (1,1)]` while
Quickhull returns `[(0,0), (2,0)]`; `(2,0)` separates the two sets. -/
theorem c1_sets_differ :
    graham_scan triPoints = [((0:ℚ), (0:ℚ)), ((1:ℚ), (1:ℚ))] ∧
    quickhull 9 triPoints = some [((0:ℚ), (0:ℚ)), ((2:ℚ), (0:ℚ))] ∧
    ¬(∀ q : Point, q ∈ graham_scan triPoints ↔ q ∈ [((0:ℚ), (0:ℚ)), ((2:ℚ), (0:ℚ))]) := by
  have hg : graham_scan triPoints = [((0:ℚ), (0:ℚ)), ((1:ℚ), (1:ℚ))] := by
    norm_num [graham_scan, triPoints, pyMinYX, sortedPoints, List.insertionSort,
      List.orderedInsert, SortRel, angClass, crossAt, openClass, lexLe, popLoop, popLoopAux,
      orientation]
  have hq : quickhull 9 triPoints = some [((0:ℚ), (0:ℚ)), ((2:ℚ), (0:ℚ))] := by
    norm_num [quickhull, triPoints, pyMinX, pyMaxX, quickhull_util, findFarthest, side]
  refine ⟨hg, hq, ?_⟩
  intro hall
  have h2 := (hall ((2:ℚ), (0:ℚ))).mpr (by norm_num)
  rw [hg] at h2
  norm_num at h2

/-- C2: the containment postcondition fails.  On `triPoints` the point
`(2,0)` belongs to the input but lies outside the convex hull of the set
of points Graham scan returns (that hull is the segment from `(0,0)` to
`(1,1)`). -/
theorem c2_containment_fails :
    graham_scan triPoints = [((0:ℚ), (0:ℚ)), ((1:ℚ), (1:ℚ))] ∧
    ((2:ℚ), (0:ℚ)) ∈ triPoints ∧
    ((2:ℚ), (0:ℚ)) ∉ convexHull ℚ {q : Point | q ∈ graham_scan triPoints} := by
  have hg : graham_scan triPoints = [((0:ℚ), (0:ℚ)), ((1:ℚ), (1:ℚ))] := by
    norm_num [graham_scan, triPoints, pyMinYX, sortedPoints, List.insertionSort,
      List.orderedInsert, SortRel, angClass, crossAt, openClass, lexLe, popLoop, popLoopAux,
      orientation]
  refine ⟨hg, by norm_num [triPoints], ?_⟩
  have hset : {q : Point | q ∈ graham_scan triPoints} =
      ({((0:ℚ), (0:ℚ)), ((1:ℚ), (1:ℚ))} : Set Point) := by
    rw [hg]
    ext q
    simp [List.mem_cons]
  rw [hset, convexHull_pair]
  rintro ⟨a, b, ha, hb, hab, hsum⟩
  have h1 := congrArg Prod.fst hsum
  have h2 := congrArg Prod.snd hsum
  simp only [Prod.fst_add, Prod.smul_fst, Prod.snd_add, Prod.smul_snd, smul_eq_mul] at h1 h2
  norm_num at h1 h2
  rw [h1] at h2
  norm_num at h2

/-- The unit square together with its centre, the concrete input of the
specification's scenario 1. -/
def squarePoints : List Point :=
  [((0:ℚ), (0:ℚ)), ((1:ℚ), (0:ℚ)), ((1:ℚ), (1:ℚ)), ((0:ℚ), (1:ℚ)), ((1:ℚ)/2, (1:ℚ)/2)]

/-- C3: on the square-plus-centre input, Quickhull does return exactly
the four corners (in its idiosyncratic order), but Graham scan returns
only `[(0,0), (0,1)]`: the corner `(1,0)` is missing from its output, so
the claimed vertex set equality with the four corners fails. -/
theorem c3_square_example_fails :
    graham_scan squarePoints = [((0:ℚ), (0:ℚ)), ((0:ℚ), (1:ℚ))] ∧
    quickhull 9 squarePoints =
      some [((0:ℚ), (1:ℚ)), ((1:ℚ), (1:ℚ)), ((0:ℚ), (0:ℚ)), ((1:ℚ), (0:ℚ))] ∧
    ((1:ℚ), (0:ℚ)) ∉ graham_scan squarePoints := by
  have hg : graham_scan squarePoints = [((0:ℚ), (0:ℚ)), ((0:ℚ), (1:ℚ))] := by
    norm_num [graham_scan, squarePoints, pyMinYX, sortedPoints, List.insertionSort,
      List.orderedInsert, SortRel, angClass, crossAt, openClass, lexLe, popLoop, popLoopAux,
      orientation]
  have hq : quickhull 9 squarePoints =
      some [((0:ℚ), (1:ℚ)), ((1:ℚ), (1:ℚ)), ((0:ℚ), (0:ℚ)), ((1:ℚ), (0:ℚ))] := by
    norm_num [quickhull, squarePoints, pyMinX, pyMaxX, quickhull_util, findFarthest, side]
  refine ⟨hg, hq, ?_⟩
  rw [hg]
  norm_num

/-- C7 counterexample: with `side_flag = 0` the claim's reading fails.
On `points = [(0,0)]`, `p1 = (0,0)`, `p2 = (1,0)` the single point
qualifies (`side = 0 = side_flag`), yet the code returns `[]` rather than
the claimed concatenation around a selected maximiser: the update guard
`abs side > max_dist` never fires since `max_dist` starts at `0`.  (Fuel
`2` is ample: every run here bottoms out immediately.) -/
theorem c7_counterexample :
    ¬((List.filter (fun q => decide (side ((0:ℚ), (0:ℚ)) ((1:ℚ), (0:ℚ)) q = 0))
          [((0:ℚ), (0:ℚ))] = [] ∧
        quickhull_util 2 [((0:ℚ), (0:ℚ))] ((0:ℚ), (0:ℚ)) ((1:ℚ), (0:ℚ)) 0 = some []) ∨
      (∃ m, m ∈ List.filter (fun q => decide (side ((0:ℚ), (0:ℚ)) ((1:ℚ), (0:ℚ)) q = 0))
          [((0:ℚ), (0:ℚ))] ∧
        (∀ q ∈ List.filter (fun q => decide (side ((0:ℚ), (0:ℚ)) ((1:ℚ), (0:ℚ)) q = 0))
            [((0:ℚ), (0:ℚ))],
          |side ((0:ℚ), (0:ℚ)) ((1:ℚ), (0:ℚ)) q| ≤ |side ((0:ℚ), (0:ℚ)) ((1:ℚ), (0:ℚ)) m|) ∧
        quickhull_util 2 [((0:ℚ), (0:ℚ))] ((0:ℚ), (0:ℚ)) ((1:ℚ), (0:ℚ)) 0 =
          match quickhull_util 1 [((0:ℚ), (0:ℚ))] ((0:ℚ), (0:ℚ)) m
                  (-(side ((0:ℚ), (0:ℚ)) m ((1:ℚ), (0:ℚ)))),
                quickhull_util 1 [((0:ℚ), (0:ℚ))] m ((1:ℚ), (0:ℚ))
                  (-(side m ((1:ℚ), (0:ℚ)) ((0:ℚ), (0:ℚ)))) with
          | some l, some r => some (l ++ [m] ++ r)
          | _, _ => none)) := by
  have hfil : List.filter (fun q => decide (side ((0:ℚ), (0:ℚ)) ((1:ℚ), (0:ℚ)) q = 0))
      [((0:ℚ), (0:ℚ))] = [((0:ℚ), (0:ℚ))] := by
    norm_num [List.filter, side]
  have hlhs : quickhull_util 2 [((0:ℚ), (0:ℚ))] ((0:ℚ), (0:ℚ)) ((1:ℚ), (0:ℚ)) 0 = some [] :=
    quickhull_util_empty 1 _ _ _ _ (by norm_num [findFarthest, side])
  rintro (⟨hempty, _⟩ | ⟨m, hm, _, heq⟩)
  · rw [hfil] at hempty
    exact List.cons_ne_nil _ _ hempty
  · rw [hfil] at hm
    have hm' := List.mem_singleton.mp hm
    subst hm'
    rw [hlhs,
      show -(side ((0:ℚ), (0:ℚ)) ((0:ℚ), (0:ℚ)) ((1:ℚ), (0:ℚ))) = 0 from by norm_num [side],
      show -(side ((0:ℚ), (0:ℚ)) ((1:ℚ), (0:ℚ)) ((0:ℚ), (0:ℚ))) = 0 from by norm_num [side],
      show quickhull_util 1 [((0:ℚ), (0:ℚ))] ((0:ℚ), (0:ℚ)) ((0:ℚ), (0:ℚ)) 0 = some [] from
        quickhull_util_empty 0 _ _ _ _ (by norm_num [findFarthest, side]),
      show quickhull_util 1 [((0:ℚ), (0:ℚ))] ((0:ℚ), (0:ℚ)) ((1:ℚ), (0:ℚ)) 0 = some [] from
        quickhull_util_empty 0 _ _ _ _ (by norm_num [findFarthest, side])] at heq
    simp at heq

/-- C7 amended (restricted to a nonzero side flag, as the counterexample
forces): `quickhull_util` scans all points; with `Q` the points whose
`side` equals the flag, it returns `[]` when `Q` is empty, and otherwise
takes the first `m` in `Q` — which maximises `abs side` over `Q`, all
qualifying points having the same `abs side` — and returns the
concatenation of the recursion on `(points, p1, m, -side(p1, m, p2))`,
then `[m]`, then the recursion on `(points, m, p2, -side(m, p2, p1))`. -/
theorem c7_amended (fuel : Nat) (points : List Point) (p1 p2 : Point) (flag : ℚ)
    (hflag : flag ≠ 0) :
    (points.filter (fun q => decide (side p1 p2 q = flag)) = [] →
      quickhull_util (fuel + 1) points p1 p2 flag = some []) ∧
    (∀ m, (points.filter (fun q => decide (side p1 p2 q = flag))).head? = some m →
      m ∈ points ∧ side p1 p2 m = flag ∧
      (∀ q ∈ points, side p1 p2 q = flag → |side p1 p2 q| ≤ |side p1 p2 m|) ∧
      quickhull_util (fuel + 1) points p1 p2 flag =
        match quickhull_util fuel points p1 m (-(side p1 m p2)),
              quickhull_util fuel points m p2 (-(side m p2 p1)) with
        | some l, some r => some (l ++ [m] ++ r)
        | _, _ => none) := by
  have hff : findFarthest points p1 p2 flag =
      (points.filter (fun q => decide (side p1 p2 q = flag))).head? := by
    rw [findFarthest_eq_find p1 p2 flag hflag, find?_eq_head_filter]
  constructor
  · intro hempty
    apply quickhull_util_empty
    rw [hff, hempty]
    rfl
  · intro m hm
    have hfind : points.find? (fun q => decide (side p1 p2 q = flag)) = some m := by
      rw [find?_eq_head_filter]
      exact hm
    have hmm : m ∈ points := List.mem_of_find?_eq_some hfind
    have hdec := List.find?_some hfind
    have hms : side p1 p2 m = flag := of_decide_eq_true hdec
    refine ⟨hmm, hms, ?_, ?_⟩
    · intro q _ hq
      rw [hq, hms]
    · exact quickhull_util_found fuel points p1 p2 m flag (by rw [hff]; exact hm)

theorem c7_amended_witness :
    ((1:ℚ) ≠ 0) ∧
      ((([((0:ℚ), (0:ℚ)), ((1:ℚ), (0:ℚ)), ((1:ℚ), (1:ℚ))] : List Point).filter
          (fun q => decide (side ((0:ℚ), (0:ℚ)) ((1:ℚ), (0:ℚ)) q = 1)) = [] →
        quickhull_util (3 + 1) [((0:ℚ), (0:ℚ)), ((1:ℚ), (0:ℚ)), ((1:ℚ), (1:ℚ))]
          ((0:ℚ), (0:ℚ)) ((1:ℚ), (0:ℚ)) 1 = some []) ∧
      (∀ m, (([((0:ℚ), (0:ℚ)), ((1:ℚ), (0:ℚ)), ((1:ℚ), (1:ℚ))] : List Point).filter
          (fun q => decide (side ((0:ℚ), (0:ℚ)) ((1:ℚ), (0:ℚ)) q = 1))).head? = some m →
        m ∈ [((0:ℚ), (0:ℚ)), ((1:ℚ), (0:ℚ)), ((1:ℚ), (1:ℚ))] ∧
        side ((0:ℚ), (0:ℚ)) ((1:ℚ), (0:ℚ)) m = 1 ∧
        (∀ q ∈ [((0:ℚ), (0:ℚ)), ((1:ℚ), (0:ℚ)), ((1:ℚ), (1:ℚ))],
          side ((0:ℚ), (0:ℚ)) ((1:ℚ), (0:ℚ)) q = 1 →
            |side ((0:ℚ), (0:ℚ)) ((1:ℚ), (0:ℚ)) q| ≤ |side ((0:ℚ), (0:ℚ)) ((1:ℚ), (0:ℚ)) m|) ∧
        quickhull_util (3 + 1) [((0:ℚ), (0:ℚ)), ((1:ℚ), (0:ℚ)), ((1:ℚ), (1:ℚ))]
            ((0:ℚ), (0:ℚ)) ((1:ℚ), (0:ℚ)) 1 =
          match quickhull_util 3 [((0:ℚ), (0:ℚ)), ((1:ℚ), (0:ℚ)), ((1:ℚ), (1:ℚ))]
                  ((0:ℚ), (0:ℚ)) m (-(side ((0:ℚ), (0:ℚ)) m ((1:ℚ), (0:ℚ)))),
                quickhull_util 3 [((0:ℚ), (0:ℚ)), ((1:ℚ), (0:ℚ)), ((1:ℚ), (1:ℚ))]
                  m ((1:ℚ), (0:ℚ)) (-(side m ((1:ℚ), (0:ℚ)) ((0:ℚ), (0:ℚ)))) with
          | some l, some r => some (l ++ [m] ++ r)
          | _, _ => none)) :=
  ⟨by norm_num,
    c7_amended 3 [((0:ℚ), (0:ℚ)), ((1:ℚ), (0:ℚ)), ((1:ℚ), (1:ℚ))]
      ((0:ℚ), (0:ℚ)) ((1:ℚ), (0:ℚ)) 1 (by norm_num)⟩
